import Mathlib

/-!
Verification of the context-window alignment scheduler of
`ComfyUI-AllergicPack` (`src/VaceContextManager/vace_context_manager.py`,
class `WanVideoVACEContextManager`).

The Python methods are embedded as pure Lean functions:

* `calculate_total_frames` / `keyframe_positions` — the timeline arithmetic
  at the top of `calculate_optimal_alignment` (lines 85–90);
* `find_optimal_window_size` — `_find_optimal_window_size` (lines 118–138);
* `select_window_size` — the `force_alignment` branch of
  `calculate_optimal_alignment` (lines 92–106);
* `calculate_window_boundaries` — `_calculate_window_boundaries`
  (lines 140–162); the Python `while` loop is embedded with an explicit
  fuel parameter, `none` meaning the loop did not finish within `fuel`
  iterations (so `(∀ fuel, … = none)` states non-termination);
* `assess_alignment_quality` — `_assess_alignment_quality` (lines 164–180),
  with Python floats modelled as rationals (every value produced here is a
  small dyadic, exactly representable);
* `create_interpolation_masks` — `create_interpolation_masks`
  (lines 182–199), the torch tensor modelled as a `List ℚ` (`1` = white =
  interpolated, `0` = black = keyframe anchor).

Python integers are modelled as `Int`.
-/

/-- Timeline length computed by `calculate_optimal_alignment`:
`total_frames = (num_keyframes - 1) * interpolation_multiplier + 1`. -/
def calculate_total_frames (num_keyframes : Nat) (interpolation_multiplier : Int) : Int :=
  ((num_keyframes : Int) - 1) * interpolation_multiplier + 1

/-- Keyframe positions computed by `calculate_optimal_alignment`:
`[i * interpolation_multiplier for i in range(num_keyframes)]`. -/
def keyframe_positions (num_keyframes : Nat) (interpolation_multiplier : Int) : List Int :=
  (List.range num_keyframes).map (fun i : Nat => (i : Int) * interpolation_multiplier)

/-- Python's `min(l, key=lambda x: x[1])` on a list of pairs: the first
element whose second component is minimal, `none` on the empty list
(where Python would raise; the source guards the call with
`if valid_candidates:`). -/
def pymin_by_snd (l : List (Int × Int)) : Option (Int × Int) :=
  match l with
  | [] => none
  | x :: xs => some (xs.foldl (fun best y => if y.2 < best.2 then y else best) x)

/-- The candidate-generation loop of `_find_optimal_window_size`:
`(spacing * m, |spacing * m - desired_size|)` for `m = 1 … 9`, keeping only
candidates `≥ 16` (the "minimum reasonable window size" check). -/
def spacing_candidates (desired_size spacing : Int) : List (Int × Int) :=
  (List.range' 1 9).filterMap (fun m : Nat =>
    if 16 ≤ spacing * (m : Int) then
      some (spacing * (m : Int), |spacing * (m : Int) - desired_size|)
    else none)

/-- Body of `_find_optimal_window_size` proper: spacing-multiple candidates,
then `candidates.append((desired_size, 0))`, then the `size <= total_frames`
filter, then Python's `min(..., key=score)` with the
`min(desired_size, total_frames)` fallback for an empty candidate list. -/
def find_optimal_window_size (desired_size spacing total_frames : Int) : Int :=
  let candidates := spacing_candidates desired_size spacing ++ [(desired_size, 0)]
  let valid_candidates := candidates.filter (fun c => c.1 ≤ total_frames)
  match pymin_by_snd valid_candidates with
  | some best => best.1
  | none => min desired_size total_frames

/-- The `force_alignment` branch of `calculate_optimal_alignment`: the
effective window size is `_find_optimal_window_size(...)` when alignment is
forced, and the caller's `context_window_size` otherwise. -/
def select_window_size (desired_size spacing total_frames : Int)
    (force_alignment : Bool) : Int :=
  if force_alignment then find_optimal_window_size desired_size spacing total_frames
  else desired_size

/-- `_calculate_window_boundaries`' `while start < total_frames` loop, with
explicit fuel. Each iteration emits `(start, min (start + window_size)
total_frames)`, stops when the window end reaches `total_frames`, and
otherwise continues from `start = end - overlap`. `none` means the loop did
not finish within `fuel` iterations; the loop body itself never fails. -/
def calculate_window_boundaries (fuel : Nat) (start total_frames window_size overlap : Int)
    (windows : List (Int × Int)) : Option (List (Int × Int)) :=
  match fuel with
  | 0 => none
  | fuel + 1 =>
    if start < total_frames then
      let e := min (start + window_size) total_frames
      let windows := windows ++ [(start, e)]
      if total_frames ≤ e then some windows
      else calculate_window_boundaries fuel (e - overlap) total_frames window_size overlap windows
    else some windows

/-- `_assess_alignment_quality(windows, keyframe_positions)`: `0` when either
list is empty; otherwise one point per window boundary (start or end) that is
a keyframe position, divided by `2 * len(windows)`. -/
def assess_alignment_quality (windows : List (Int × Int))
    (kf_positions : List Int) : ℚ :=
  if windows = [] ∨ kf_positions = [] then 0
  else
    let total_boundaries : ℚ := (windows.length : ℚ) * 2
    let alignment_score : ℚ := windows.foldl
      (fun s w =>
        (s + (if w.1 ∈ kf_positions then 1 else 0))
          + (if w.2 ∈ kf_positions then 1 else 0)) 0
    alignment_score / total_boundaries

/-- `create_interpolation_masks`: a tensor of ones of length `total_frames`,
then `masks[pos] = 0.0` for each keyframe position `pos < total_frames`.
All keyframe positions produced by this repository are nonnegative
(`i * interpolation_multiplier`), so the embedding guards on `0 ≤ pos` as
well (a negative `pos` would be Python wrap-around indexing, which never
occurs here and which every claim's hypothesis excludes). -/
def create_interpolation_masks (total_frames : Nat) (kf_positions : List Int) : List ℚ :=
  kf_positions.foldl
    (fun masks pos =>
      if 0 ≤ pos ∧ pos < (total_frames : Int) then masks.set pos.toNat 0 else masks)
    (List.replicate total_frames 1)

/-- The fold inside `pymin_by_snd` returns an element of the list it scans. -/
theorem foldl_min2_mem (x : Int × Int) (xs : List (Int × Int)) :
    xs.foldl (fun best y => if y.2 < best.2 then y else best) x ∈ x :: xs := by
  induction xs generalizing x with
  | nil => simp
  | cons y ys ih =>
    simp only [List.foldl_cons]
    rcases List.mem_cons.mp (ih (if y.2 < x.2 then y else x)) with h1 | h1
    · rw [h1]
      by_cases hc : y.2 < x.2 <;> simp [hc]
    · exact List.mem_cons_of_mem _ (List.mem_cons_of_mem _ h1)

/-- The fold inside `pymin_by_snd` minimizes the second component. -/
theorem foldl_min2_le (x : Int × Int) (xs : List (Int × Int)) :
    ∀ z ∈ x :: xs, (xs.foldl (fun best y => if y.2 < best.2 then y else best) x).2 ≤ z.2 := by
  induction xs generalizing x with
  | nil =>
    intro z hz
    rcases List.mem_cons.mp hz with rfl | hz'
    · exact le_refl _
    · simp at hz'
  | cons y ys ih =>
    intro z hz
    simp only [List.foldl_cons]
    have hfx : (if y.2 < x.2 then y else x).2 ≤ x.2 := by
      by_cases hc : y.2 < x.2 <;> simp [hc] <;> omega
    have hfy : (if y.2 < x.2 then y else x).2 ≤ y.2 := by
      by_cases hc : y.2 < x.2 <;> simp [hc] <;> omega
    have hhead := ih (if y.2 < x.2 then y else x) _ (List.mem_cons_self _ _)
    rcases List.mem_cons.mp hz with rfl | hz'
    · exact le_trans hhead hfx
    rcases List.mem_cons.mp hz' with rfl | hz2
    · exact le_trans hhead hfy
    · exact ih _ z (List.mem_cons_of_mem _ hz2)

/-- `pymin_by_snd` returns a member of the list whose second component is a
minimum, exactly as Python's `min(candidates, key=lambda x: x[1])` (first
minimal element on ties). -/
theorem pymin_by_snd_spec (l : List (Int × Int)) (best : Int × Int)
    (h : pymin_by_snd l = some best) : best ∈ l ∧ ∀ z ∈ l, best.2 ≤ z.2 := by
  match l with
  | [] => simp [pymin_by_snd] at h
  | x :: xs =>
    simp only [pymin_by_snd, Option.some.injEq] at h
    rw [← h]
    exact ⟨foldl_min2_mem x xs, foldl_min2_le x xs⟩

/-- C3: with `force_alignment = true`, whenever the caller's `desired_size`
does not exceed `total_frames`, `select_window_size` returns `desired_size`
itself: the source appends `(desired_size, 0)` as a zero-distance candidate,
`0` is the minimum possible distance, and any spacing-multiple candidate that
ties at distance `0` is equal to `desired_size` anyway — so the alignment
request is silently defeated. -/
theorem spacing_candidates_snd (desired_size spacing : Int) (z : Int × Int)
    (hz : z ∈ spacing_candidates desired_size spacing) :
    0 ≤ z.2 ∧ (z.2 = 0 → z.1 = desired_size) := by
  obtain ⟨m, _, hfm⟩ := List.mem_filterMap.mp hz
  by_cases hc : 16 ≤ spacing * (m : Int)
  · rw [if_pos hc] at hfm
    obtain rfl := Option.some.inj hfm
    refine ⟨abs_nonneg _, fun h0 => ?_⟩
    have := abs_eq_zero.mp h0
    omega
  · rw [if_neg hc] at hfm
    exact absurd hfm (by simp)

theorem select_window_size_forced_returns_desired
    (desired_size spacing total_frames : Int)
    (hspacing : 6 ≤ spacing) (htotal : 1 ≤ total_frames)
    (hdes : desired_size ≤ total_frames) :
    select_window_size desired_size spacing total_frames true = desired_size := by
  show find_optimal_window_size desired_size spacing total_frames = desired_size
  simp only [find_optimal_window_size]
  split
  case _ best heq =>
    obtain ⟨hmem, hle⟩ := pymin_by_snd_spec _ best heq
    have hbest0 : best.2 ≤ ((desired_size, (0 : Int)) : Int × Int).2 :=
      hle _ (List.mem_filter.mpr
        ⟨List.mem_append_right _ (by simp), by simpa using hdes⟩)
    simp only at hbest0
    have hcand := (List.mem_filter.mp hmem).1
    rcases List.mem_append.mp hcand with hA | hB
    · obtain ⟨hnn, heq0⟩ := spacing_candidates_snd desired_size spacing best hA
      exact heq0 (le_antisymm hbest0 hnn)
    · have hb : best = (desired_size, 0) := by simpa using hB
      rw [hb]
  case _ heq =>
    exact min_eq_left hdes

/-- Witness for C3 at `desired_size = 18`, `spacing = 6`, `total_frames = 20`. -/
theorem select_window_size_forced_returns_desired_witness :
    (6 : Int) ≤ 6 ∧ (1 : Int) ≤ 20 ∧ (18 : Int) ≤ 20 ∧
      select_window_size 18 6 20 true = 18 :=
  ⟨by norm_num, by norm_num, by norm_num,
    select_window_size_forced_returns_desired 18 6 20 (by norm_num) (by norm_num) (by norm_num)⟩

/-- C4: for `desired_size = 32`, `spacing = 8`, `total_frames = 25` with
forced alignment, the spacing-multiple candidates `{16, 24}` survive the
`≤ total_frames` filter, `desired_size = 32` itself is filtered out, and the
closest survivor to `32` is `24`. -/
theorem select_window_size_example_24 : select_window_size 32 8 25 true = 24 := by decide

/-- In the degenerate configuration `window_size ≤ overlap` with
`window_size < total_frames`, the partition loop's `start` never advances
past `0`, so it never finishes, whatever the iteration budget. -/
theorem boundaries_degenerate_aux (total_frames window_size overlap : Int)
    (h1 : 1 ≤ window_size) (h2 : window_size ≤ overlap) (h3 : window_size < total_frames) :
    ∀ (fuel : Nat) (start : Int) (acc : List (Int × Int)), start ≤ 0 →
      calculate_window_boundaries fuel start total_frames window_size overlap acc = none := by
  intro fuel
  induction fuel with
  | zero => intro start acc _; rfl
  | succ n ih =>
    intro start acc hs
    have hst : start < total_frames := by omega
    have hmin : min (start + window_size) total_frames = start + window_size :=
      min_eq_left (by omega)
    simp only [calculate_window_boundaries, if_pos hst, hmin,
      if_neg (show ¬total_frames ≤ start + window_size by omega)]
    exact ih (start + window_size - overlap) _ (by omega)

/-- C1: the code has no `DegenerateConfiguration` guard at all — when
`overlap ≥ window_size` (and `window_size < total_frames`, so a single
window cannot cover the timeline), `_calculate_window_boundaries` loops
forever: for every iteration budget the embedded loop fails to finish.
The spec's claim that it "fails with DegenerateConfiguration rather than
hanging" is therefore the intended behavior, not the implemented one. -/
theorem degenerate_overlap_partition_never_returns
    (total_frames window_size overlap : Int)
    (h1 : 1 ≤ window_size) (h2 : window_size ≤ overlap) (h3 : window_size < total_frames)
    (fuel : Nat) :
    calculate_window_boundaries fuel 0 total_frames window_size overlap [] = none :=
  boundaries_degenerate_aux total_frames window_size overlap h1 h2 h3 fuel 0 [] le_rfl

/-- Witness for C1 at `total_frames = 10`, `window_size = 5`, `overlap = 5`:
even with fuel for 1000 iterations the loop has not produced a window list. -/
theorem degenerate_overlap_partition_never_returns_witness :
    (1 : Int) ≤ 5 ∧ (5 : Int) ≤ 5 ∧ (5 : Int) < 10 ∧
      calculate_window_boundaries 1000 0 10 5 5 [] = none :=
  ⟨by norm_num, by norm_num, by norm_num,
    degenerate_overlap_partition_never_returns 10 5 5 (by norm_num) (by norm_num)
      (by norm_num) 1000⟩

/-- One-step unfolding of the partition loop for a successor fuel value. -/
theorem calculate_window_boundaries_succ (n : Nat) (start t w ov : Int)
    (acc : List (Int × Int)) :
    calculate_window_boundaries (n + 1) start t w ov acc =
      if start < t then
        if t ≤ min (start + w) t then some (acc ++ [(start, min (start + w) t)])
        else calculate_window_boundaries n (min (start + w) t - ov) t w ov
          (acc ++ [(start, min (start + w) t)])
      else some acc := rfl

/-- Loop invariant of `_calculate_window_boundaries` under the documented
precondition `0 ≤ overlap < window_size`: any successful run starting from
`start` appends to the accumulator a window list whose first window starts
exactly at `start`, whose windows are nonempty, lie inside
`[start, total_frames]` and have strictly increasing starts, which covers
every frame of `[start, total_frames)`, whose consecutive windows satisfy
`next.start = prev.end - overlap`, and all of whose windows except the last
have width exactly `window_size`. -/
theorem boundaries_invariant (t w ov : Int) (hw : 1 ≤ w) (hov0 : 0 ≤ ov) (hovw : ov < w) :
    ∀ (fuel : Nat) (start : Int) (acc L : List (Int × Int)),
      calculate_window_boundaries fuel start t w ov acc = some L →
      ∃ tl, L = acc ++ tl ∧
        ((t ≤ start → tl = []) ∧
         (start < t →
           (∃ p tl2, tl = (start, p) :: tl2) ∧
           (∀ x ∈ tl, start ≤ x.1 ∧ x.1 < x.2 ∧ x.2 ≤ t) ∧
           (∀ q : Int, start ≤ q → q < t → ∃ x ∈ tl, x.1 ≤ q ∧ q < x.2) ∧
           List.Chain' (fun a b => b.1 = a.2 - ov) tl ∧
           List.Chain' (fun a b => a.1 < b.1) tl ∧
           (∀ x ∈ tl.dropLast, x.2 - x.1 = w))) := by
  intro fuel
  induction fuel with
  | zero =>
    intro start acc L h
    exact absurd h (by simp [calculate_window_boundaries])
  | succ n ih =>
    intro start acc L h
    by_cases hst : start < t
    · simp only [calculate_window_boundaries, if_pos hst] at h
      by_cases hend : t ≤ min (start + w) t
      · rw [if_pos hend] at h
        have hmin : min (start + w) t = t := by omega
        rw [hmin] at h
        obtain rfl := (Option.some.inj h).symm
        refine ⟨[(start, t)], by simp, fun hts => absurd hts (by omega), fun _ => ?_⟩
        refine ⟨⟨t, [], rfl⟩, ?_, ?_, ?_, ?_, ?_⟩
        · intro x hx
          have hx' : x = (start, t) := by simpa using hx
          subst hx'
          exact ⟨le_refl _, hst, le_refl _⟩
        · intro q hq1 hq2
          exact ⟨(start, t), by simp, hq1, hq2⟩
        · exact List.chain'_singleton _
        · exact List.chain'_singleton _
        · intro x hx
          simp [List.dropLast] at hx
      · rw [if_neg hend] at h
        have hwlt : start + w < t := by omega
        have hmin : min (start + w) t = start + w := min_eq_left (by omega)
        rw [hmin] at h
        obtain ⟨tl', hL, hIempty, hIlt⟩ :=
          ih (start + w - ov) (acc ++ [(start, start + w)]) L h
        have hs'lt : start + w - ov < t := by omega
        have hs'gt : start < start + w - ov := by omega
        obtain ⟨⟨p, tl2, htl'⟩, hbounds, hcover, hchain_ov, hchain_lt, hlen⟩ := hIlt hs'lt
        refine ⟨(start, start + w) :: tl',
          by rw [hL, List.append_assoc]; rfl,
          fun hts => absurd hts (by omega), fun _ => ?_⟩
        refine ⟨⟨start + w, tl', rfl⟩, ?_, ?_, ?_, ?_, ?_⟩
        · intro x hx
          rcases List.mem_cons.mp hx with rfl | hx'
          · exact ⟨le_refl _, by omega, by omega⟩
          · obtain ⟨b1, b2, b3⟩ := hbounds x hx'
            exact ⟨by omega, b2, b3⟩
        · intro q hq1 hq2
          by_cases hq : q < start + w - ov
          · exact ⟨(start, start + w), List.mem_cons_self _ _, hq1, by omega⟩
          · obtain ⟨x, hx, hx1, hx2⟩ := hcover q (by omega) hq2
            exact ⟨x, List.mem_cons_of_mem _ hx, hx1, hx2⟩
        · rw [htl']
          refine List.chain'_cons.mpr ⟨?_, ?_⟩
          · rfl
          · rw [← htl']; exact hchain_ov
        · rw [htl']
          refine List.chain'_cons.mpr ⟨?_, ?_⟩
          · simpa using hs'gt
          · rw [← htl']; exact hchain_lt
        · intro x hx
          rw [htl'] at hx
          rcases List.mem_cons.mp hx with rfl | hx'
          · simp
          · rw [htl'] at hlen
            exact hlen x hx'
    · simp only [calculate_window_boundaries, if_neg hst] at h
      obtain rfl := (Option.some.inj h).symm
      exact ⟨[], by simp, fun _ => rfl, fun hlt => absurd hlt hst⟩

/-- C5: for valid inputs (`total_frames ≥ 1`, `window_size ≥ 1`,
`0 ≤ overlap < window_size`), any window list produced by
`_calculate_window_boundaries` covers every frame of `[0, total_frames)`,
keeps every window inside `0 ≤ start < end ≤ total_frames`, and emits
windows in strictly increasing start order. -/
theorem partition_covers_range (total_frames window_size overlap : Int) (fuel : Nat)
    (L : List (Int × Int)) (h1 : 1 ≤ total_frames) (h2 : 1 ≤ window_size)
    (h3 : 0 ≤ overlap) (h4 : overlap < window_size)
    (hrun : calculate_window_boundaries fuel 0 total_frames window_size overlap [] = some L) :
    (∀ p : Int, 0 ≤ p → p < total_frames → ∃ x ∈ L, x.1 ≤ p ∧ p < x.2) ∧
    (∀ x ∈ L, 0 ≤ x.1 ∧ x.1 < x.2 ∧ x.2 ≤ total_frames) ∧
    List.Chain' (fun a b => a.1 < b.1) L := by
  obtain ⟨tl, hL, _, hlt⟩ :=
    boundaries_invariant total_frames window_size overlap h2 h3 h4 fuel 0 [] L hrun
  rw [List.nil_append] at hL
  subst hL
  obtain ⟨_, hbounds, hcover, _, hchainlt, _⟩ := hlt (by omega)
  exact ⟨hcover, hbounds, hchainlt⟩

/-- Witness for C5: `total_frames = 25`, `window_size = 24`, `overlap = 2`
produce the windows `[(0, 24), (22, 25)]` (the spec's partition example). -/
theorem partition_covers_range_witness :
    (1 : Int) ≤ 25 ∧
      ((∀ p : Int, 0 ≤ p → p < 25 →
          ∃ x ∈ ([(0, 24), (22, 25)] : List (Int × Int)), x.1 ≤ p ∧ p < x.2) ∧
       (∀ x ∈ ([(0, 24), (22, 25)] : List (Int × Int)), 0 ≤ x.1 ∧ x.1 < x.2 ∧ x.2 ≤ 25) ∧
       List.Chain' (fun a b => a.1 < b.1) ([(0, 24), (22, 25)] : List (Int × Int))) :=
  ⟨by norm_num,
    partition_covers_range 25 24 2 26 [(0, 24), (22, 25)] (by norm_num) (by norm_num)
      (by norm_num) (by norm_num) (by decide)⟩

/-- C6: for valid inputs the partition loop terminates — a fuel budget of
`total_frames + 1` iterations suffices for the embedded loop to return a
window list (the Python loop performs the same iterations, hence finishes). -/
theorem partition_terminates (total_frames window_size overlap : Int)
    (h1 : 1 ≤ total_frames) (h2 : 1 ≤ window_size)
    (h3 : 0 ≤ overlap) (h4 : overlap < window_size) :
    ∃ L, calculate_window_boundaries (total_frames.toNat + 1) 0
        total_frames window_size overlap [] = some L := by
  have key : ∀ (n : Nat) (start : Int) (acc : List (Int × Int)),
      total_frames < start + (n : Int) + 1 →
      ∃ L, calculate_window_boundaries (n + 1) start
          total_frames window_size overlap acc = some L := by
    intro n
    induction n with
    | zero =>
      intro start acc hle
      have hst : ¬ start < total_frames := by omega
      exact ⟨acc, by rw [calculate_window_boundaries_succ, if_neg hst]⟩
    | succ m ih =>
      intro start acc hle
      by_cases hst : start < total_frames
      · by_cases hend : total_frames ≤ min (start + window_size) total_frames
        · exact ⟨acc ++ [(start, min (start + window_size) total_frames)],
            by rw [calculate_window_boundaries_succ, if_pos hst, if_pos hend]⟩
        · have hmin : min (start + window_size) total_frames = start + window_size :=
            min_eq_left (by omega)
          obtain ⟨L, hL⟩ := ih (start + window_size - overlap)
            (acc ++ [(start, start + window_size)]) (by omega)
          refine ⟨L, ?_⟩
          rw [calculate_window_boundaries_succ, if_pos hst, if_neg hend, hmin]
          exact hL
      · exact ⟨acc, by rw [calculate_window_boundaries_succ, if_neg hst]⟩
  exact key total_frames.toNat 0 [] (by omega)

/-- Witness for C6 at `total_frames = 25`, `window_size = 24`, `overlap = 2`. -/
theorem partition_terminates_witness :
    (1 : Int) ≤ 25 ∧
      ∃ L, calculate_window_boundaries ((25 : Int).toNat + 1) 0 25 24 2 [] = some L :=
  ⟨by norm_num,
    partition_terminates 25 24 2 (by norm_num) (by norm_num) (by norm_num) (by norm_num)⟩

/-- C7: in any window list produced by `_calculate_window_boundaries` on
valid inputs, every pair of consecutive windows except possibly the last
pair (the pairs of `L.dropLast`) overlaps by exactly `overlap` frames:
`prev.end - next.start = overlap`. (The source in fact guarantees this for
the last pair as well — `start = end - overlap` is unconditional — but only
the claimed weaker form is stated here.) -/
theorem partition_overlap_exact (total_frames window_size overlap : Int) (fuel : Nat)
    (L : List (Int × Int)) (h1 : 1 ≤ total_frames) (h2 : 1 ≤ window_size)
    (h3 : 0 ≤ overlap) (h4 : overlap < window_size)
    (hrun : calculate_window_boundaries fuel 0 total_frames window_size overlap [] = some L) :
    List.Chain' (fun a b => a.2 - b.1 = overlap) L.dropLast := by
  obtain ⟨tl, hL, _, hlt⟩ :=
    boundaries_invariant total_frames window_size overlap h2 h3 h4 fuel 0 [] L hrun
  rw [List.nil_append] at hL
  subst hL
  obtain ⟨_, _, _, hchain_ov, _, _⟩ := hlt (by omega)
  exact (hchain_ov.imp (fun a b hab => by omega)).init

/-- Witness for C7 on the windows `[(0, 24), (22, 25)]` of
`total_frames = 25`, `window_size = 24`, `overlap = 2`. -/
theorem partition_overlap_exact_witness :
    (1 : Int) ≤ 25 ∧
      List.Chain' (fun a b => a.2 - b.1 = 2)
        ([(0, 24), (22, 25)] : List (Int × Int)).dropLast :=
  ⟨by norm_num,
    partition_overlap_exact 25 24 2 26 [(0, 24), (22, 25)] (by norm_num) (by norm_num)
      (by norm_num) (by norm_num) (by decide)⟩

/-- C10: in any window list produced by `_calculate_window_boundaries` on
valid inputs, every window except the final one (every member of
`L.dropLast`) has width exactly `window_size`; only the final window may be
clipped shorter by `total_frames`. -/
theorem partition_nonfinal_full_width (total_frames window_size overlap : Int) (fuel : Nat)
    (L : List (Int × Int)) (h1 : 1 ≤ total_frames) (h2 : 1 ≤ window_size)
    (h3 : 0 ≤ overlap) (h4 : overlap < window_size)
    (hrun : calculate_window_boundaries fuel 0 total_frames window_size overlap [] = some L) :
    ∀ x ∈ L.dropLast, x.2 - x.1 = window_size := by
  obtain ⟨tl, hL, _, hlt⟩ :=
    boundaries_invariant total_frames window_size overlap h2 h3 h4 fuel 0 [] L hrun
  rw [List.nil_append] at hL
  subst hL
  obtain ⟨_, _, _, _, _, hlen⟩ := hlt (by omega)
  exact hlen

/-- Witness for C10 on the windows `[(0, 24), (22, 25)]` of
`total_frames = 25`, `window_size = 24`, `overlap = 2`. -/
theorem partition_nonfinal_full_width_witness :
    (1 : Int) ≤ 25 ∧
      ∀ x ∈ ([(0, 24), (22, 25)] : List (Int × Int)).dropLast, x.2 - x.1 = 24 :=
  ⟨by norm_num,
    partition_nonfinal_full_width 25 24 2 26 [(0, 24), (22, 25)] (by norm_num) (by norm_num)
      (by norm_num) (by norm_num) (by decide)⟩

/-- Concrete evaluation of the quality score on the single window `(0, 9)`
with anchors `[0, 8]`: the window start `0` is an anchor (1 point), the
window end `9` is not — the last anchor is `8`, since window ends are
exclusive — so the score is `1 / 2`. -/
theorem quality_single_window_eval : assess_alignment_quality [(0, 9)] [0, 8] = 1 / 2 := by
  simp only [assess_alignment_quality]
  norm_num
  decide

/-- C2 counterexample: for `anchor_count = 2`, `spacing = 8`
(`total_frames = 9`, anchors `[0, 8]`), `window_size = 9`, `overlap = 0`,
partitioning does yield the single window `(0, 9)`, but
`_assess_alignment_quality` returns `0.5`, not the claimed `1.0`: the
exclusive window end `9` matches no anchor. -/
theorem quality_single_window_not_one :
    keyframe_positions 2 8 = [0, 8] ∧
      calculate_window_boundaries 10 0 9 9 0 [] = some [(0, 9)] ∧
      assess_alignment_quality [(0, 9)] [0, 8] ≠ 1 :=
  ⟨by decide, by decide, by rw [quality_single_window_eval]; norm_num⟩

/-- C2 amended: same configuration, quality `= 0.5` — only the start
boundary `0` lies on an anchor; the end boundary `9` is one past the last
anchor `8` because windows are half-open. -/
theorem quality_single_window_half :
    keyframe_positions 2 8 = [0, 8] ∧
      calculate_window_boundaries 10 0 9 9 0 [] = some [(0, 9)] ∧
      assess_alignment_quality [(0, 9)] [0, 8] = 1 / 2 :=
  ⟨by decide, by decide, quality_single_window_eval⟩

/-- C8: for `anchor_count ≥ 2` and `spacing ≥ 6`,
`calculate_optimal_alignment` computes
`total_frames = (N - 1) * multiplier + 1` and anchor positions
`[0, multiplier, …, (N - 1) * multiplier]`: the position list has length
`N`, is strictly increasing, starts at `0`, and ends at
`total_frames - 1`. -/
theorem timeline_formula (N : Nat) (mult : Int) (hN : 2 ≤ N) (hm : 6 ≤ mult) :
    calculate_total_frames N mult = ((N : Int) - 1) * mult + 1 ∧
    keyframe_positions N mult = (List.range N).map (fun i : Nat => (i : Int) * mult) ∧
    (keyframe_positions N mult).length = N ∧
    List.Pairwise (fun a b => a < b) (keyframe_positions N mult) ∧
    (keyframe_positions N mult).head? = some 0 ∧
    (keyframe_positions N mult).getLast? = some (calculate_total_frames N mult - 1) := by
  obtain ⟨M, rfl⟩ : ∃ M, N = M + 1 := ⟨N - 1, by omega⟩
  refine ⟨rfl, rfl, by simp only [keyframe_positions, List.length_map, List.length_range],
    ?_, ?_, ?_⟩
  · simp only [keyframe_positions, List.pairwise_map]
    refine (List.pairwise_lt_range (M + 1)).imp ?_
    intro a b hab
    have hab' : (a : Int) < (b : Int) := by exact_mod_cast hab
    exact mul_lt_mul_of_pos_right hab' (by omega)
  · simp [keyframe_positions, List.range_succ_eq_map]
  · have hsplit : keyframe_positions (M + 1) mult =
        (List.range M).map (fun i : Nat => (i : Int) * mult) ++ [(M : Int) * mult] := by
      simp [keyframe_positions, List.range_succ]
    rw [hsplit, List.getLast?_concat]
    congr 1
    simp only [calculate_total_frames]
    push_cast
    ring

/-- Witness for C8 at `anchor_count = 4`, `spacing = 8`:
`total_frames = 25`, anchors `[0, 8, 16, 24]`, last anchor
`= total_frames - 1`. -/
theorem timeline_formula_witness :
    calculate_total_frames 4 8 = 25 ∧ keyframe_positions 4 8 = [0, 8, 16, 24] ∧
      (keyframe_positions 4 8).getLast? = some (calculate_total_frames 4 8 - 1) :=
  ⟨by decide, by decide, (timeline_formula 4 8 (by norm_num) (by norm_num)).2.2.2.2.2⟩

/-- The mask-assignment fold of `create_interpolation_masks` preserves the
tensor length (`masks[pos] = 0.0` is an in-place write). -/
theorem masks_foldl_length (t : Nat) (ps : List Int) :
    ∀ masks : List ℚ,
      (ps.foldl (fun m pos =>
        if 0 ≤ pos ∧ pos < (t : Int) then m.set pos.toNat 0 else m) masks).length
        = masks.length := by
  induction ps with
  | nil => intro masks; rfl
  | cons q ps ih =>
    intro masks
    simp only [List.foldl_cons]
    rw [ih]
    by_cases hc : 0 ≤ q ∧ q < (t : Int)
    · rw [if_pos hc, List.length_set]
    · rw [if_neg hc]

/-- Pointwise effect of the mask-assignment fold: for in-range positions,
entry `p` becomes `0` exactly when `p` occurs among the written positions,
and is otherwise untouched. -/
theorem masks_foldl_get (t : Nat) (ps : List Int) :
    ∀ (masks : List ℚ) (p : Nat), masks.length = t → p < t →
      (∀ q ∈ ps, 0 ≤ q ∧ q < (t : Int)) →
      (ps.foldl (fun m pos =>
          if 0 ≤ pos ∧ pos < (t : Int) then m.set pos.toNat 0 else m) masks)[p]? =
        if (p : Int) ∈ ps then some 0 else masks[p]? := by
  induction ps with
  | nil =>
    intro masks p hlen hp hq
    simp
  | cons q ps ih =>
    intro masks p hlen hp hq
    have hqr := hq q (List.mem_cons_self _ _)
    simp only [List.foldl_cons, if_pos hqr]
    rw [ih (masks.set q.toNat 0) p (by rw [List.length_set]; exact hlen) hp
      (fun r hr => hq r (List.mem_cons_of_mem _ hr))]
    by_cases hmem2 : (p : Int) ∈ ps
    · rw [if_pos hmem2, if_pos (List.mem_cons_of_mem _ hmem2)]
    · rw [if_neg hmem2]
      by_cases heq : (p : Int) = q
      · rw [if_pos (by rw [heq]; exact List.mem_cons_self _ _)]
        have hq2 : q.toNat = p := by omega
        rw [hq2]
        exact List.getElem?_set_self (by omega)
      · rw [if_neg (fun hc => (List.mem_cons.mp hc).elim heq hmem2)]
        exact List.getElem?_set_ne (by omega)

/-- C9: for anchor positions all lying in `[0, total_frames)`,
`create_interpolation_masks` returns a length-`total_frames` mask whose
entry at `p` is `0` (black, anchor) exactly when `p` is an anchor position
and `1` (white, interpolated) otherwise. -/
theorem role_mask_correct (t : Nat) (ps : List Int) (ht : 1 ≤ t)
    (hps : ∀ q ∈ ps, 0 ≤ q ∧ q < (t : Int)) :
    (create_interpolation_masks t ps).length = t ∧
    ∀ p : Nat, p < t →
      (create_interpolation_masks t ps)[p]? = some (if (p : Int) ∈ ps then 0 else 1) := by
  constructor
  · show (ps.foldl _ (List.replicate t 1)).length = t
    rw [masks_foldl_length, List.length_replicate]
  · intro p hp
    show (ps.foldl _ (List.replicate t (1 : ℚ)))[p]? = _
    rw [masks_foldl_get t ps (List.replicate t 1) p (by simp) hp hps]
    by_cases hmem : (p : Int) ∈ ps
    · rw [if_pos hmem, if_pos hmem]
    · rw [if_neg hmem, if_neg hmem, List.getElem?_replicate, if_pos hp]

/-- Witness for C9 at `total_frames = 9`, anchors `[0, 8]`: the mask is
`[0, 1, 1, 1, 1, 1, 1, 1, 0]` (anchor, 7 × interpolated, anchor). -/
theorem role_mask_correct_witness :
    create_interpolation_masks 9 [0, 8] = [0, 1, 1, 1, 1, 1, 1, 1, 0] ∧
      (create_interpolation_masks 9 [0, 8]).length = 9 ∧
      ∀ p : Nat, p < 9 →
        (create_interpolation_masks 9 [0, 8])[p]? =
          some (if (p : Int) ∈ ([0, 8] : List Int) then 0 else 1) :=
  ⟨by decide, role_mask_correct 9 [0, 8] (by norm_num) (by decide)⟩
